import Mathlib

/-!
Shallow embedding of the go-accounting repository: the `balance` package
(Balance, Balances and their derived queries) and the `account` package
(Account construction, validation, equality, JSON round-trip), together
with the external time-range and currency-code collaborators modelled
from the contract stated in the specification.

Instants of time are modelled as integers: the code only uses the total
order (Before/After), equality (Equal) and nothing else of time.Time.
-/

/-- An instant of time.  `time.Time` is used by the source only through
its total order and equality, so an integer timestamp is a faithful model. -/
abbrev Time := Int

/-- Modelled from the spec: `gtime.NullTime` of the go-time collaborator —
an instant plus a presence flag (`end() -> {isSet, instant}`). -/
structure NullTime where
  Valid : Bool
  Time : Time
deriving DecidableEq, Repr

/-- Modelled from the spec: `gtime.Range` of the go-time collaborator — a
start instant and an optional end instant; half-open on the right. -/
structure Range where
  start : NullTime
  stop : NullTime
deriving DecidableEq, Repr

/-- A Go `error` value as the source produces them: a plain message error
(`errors.New`), an `account.FieldError` (a list of violation descriptions),
or a `balance.DateOutOfAccountTimeRange` carrying the balance date and the
account time range. -/
inductive GoError where
  | msg (s : String)
  | fieldError (descs : List String)
  | dateOutOfAccountTimeRange (BalanceDate : Time) (AccountTimeRange : Range)
deriving DecidableEq, Repr

/-- `Range.Start()` accessor of the collaborator. -/
def Range.Start (r : Range) : NullTime := r.start

/-- `Range.End()` accessor of the collaborator (`end` is a Lean keyword,
the field is called `stop` here). -/
def Range.End (r : Range) : NullTime := r.stop

/-- Modelled from the spec: `Range.Contains(instant)` — containment in the
half-open interval: inclusive of the start instant, exclusive of the end
instant, unbounded on an unset side. -/
def Range.Contains (r : Range) (t : Time) : Bool :=
  (!r.start.Valid || decide (r.start.Time ≤ t)) &&
    (!r.stop.Valid || decide (t < r.stop.Time))

/-- Equality of two `NullTime`s: same presence flag, and the same instant
when present. -/
def NullTime.EqualNT (a b : NullTime) : Bool :=
  a.Valid == b.Valid && (!a.Valid || decide (a.Time = b.Time))

/-- Modelled from the spec: `Range.Equal(other)` of the collaborator —
both bounds agree in presence and, when present, in instant. -/
def Range.Equal (r o : Range) : Bool :=
  NullTime.EqualNT r.start o.start && NullTime.EqualNT r.stop o.stop

/-- The zero value of `gtime.Range`: both bounds unset. -/
def Range.empty : Range := ⟨⟨false, 0⟩, ⟨false, 0⟩⟩

/-- Modelled from the spec: the `gtime.Start(t)` mutator — sets the start
instant; can fail (end-before-start). -/
def gtimeStart (t : Time) (r : Range) : Except GoError Range :=
  if r.stop.Valid && decide (r.stop.Time < t) then
    .error (.msg "start after end")
  else
    .ok { r with start := ⟨true, t⟩ }

/-- Modelled from the spec: the `gtime.End(t)` mutator — sets the end
instant; can fail (end-before-start). -/
def gtimeEnd (t : Time) (r : Range) : Except GoError Range :=
  if r.start.Valid && decide (t < r.start.Time) then
    .error (.msg "end before start")
  else
    .ok { r with stop := ⟨true, t⟩ }

/-! ## The balance package -/

/-- `balance.ErrEmptyBalancesMessage`. -/
def ErrEmptyBalancesMessage : String := "empty Balances"

/-- `balance.ErrNoBalances`. -/
def ErrNoBalances : String := "no Balances"

/-- `balance.Balance`: a date instant and a signed integer amount. -/
structure Balance where
  Date : Time
  Amount : Int
deriving DecidableEq, Repr

/-- `Balance.Equal`: amounts equal and dates instant-equal. -/
def Balance.Equal (b ob : Balance) : Bool :=
  b.Amount == ob.Amount && decide (b.Date = ob.Date)

/-- `balance.Balances`: an ordered sequence of Balance values. -/
abbrev Balances := List Balance

/-- `Balances.Sum`: the sum of all amounts. -/
def Balances.Sum (bs : Balances) : Int :=
  bs.foldl (fun s b => s + b.Amount) 0

/-- The loop body of `Balances.Earliest`: `e` starts as `bs[0]` and is
replaced whenever a strictly earlier date is encountered
(`if b.Date.Before(e.Date) { e = b }`). -/
def earliestLoop (e : Balance) : List Balance → Balance
  | [] => e
  | b :: rest => earliestLoop (if b.Date < e.Date then b else e) rest

/-- `Balances.Earliest`: error on the empty collection, otherwise the loop
over the whole sequence starting from its first element. -/
def Balances.Earliest (bs : Balances) : Except GoError Balance :=
  match bs with
  | [] => .error (.msg ErrEmptyBalancesMessage)
  | b0 :: _ => .ok (earliestLoop b0 bs)

/-- The loop body of `Balances.Latest`: `l` starts as `bs[0]` and is
replaced whenever its date is not after the encountered one
(`if !l.Date.After(b.Date) { l = b }`). -/
def latestLoop (l : Balance) : List Balance → Balance
  | [] => l
  | b :: rest => latestLoop (if l.Date ≤ b.Date then b else l) rest

/-- `Balances.Latest`: error on the empty collection, otherwise the loop
over the whole sequence starting from its first element. -/
def Balances.Latest (bs : Balances) : Except GoError Balance :=
  match bs with
  | [] => .error (.msg ErrEmptyBalancesMessage)
  | b0 :: _ => .ok (latestLoop b0 bs)

/-- The loop body of `Balances.AtTime`: elements dated after `t` are
skipped; a qualifying element replaces the accumulator when the
accumulator is absent or its date is not after the element's
(the source's two consecutive `if`s collapse to this: when `at` has just
been set to `bs[i]`, the second `if` re-assigns the same element). -/
def atTimeLoop (t : Time) (at_ : Option Balance) : List Balance → Option Balance
  | [] => at_
  | b :: rest =>
    if t < b.Date then
      atTimeLoop t at_ rest
    else
      match at_ with
      | none => atTimeLoop t (some b) rest
      | some a => atTimeLoop t (if a.Date ≤ b.Date then some b else some a) rest

/-- `Balances.AtTime`: the loop over the sequence with an absent
accumulator; error when no Balance qualifies. -/
def Balances.AtTime (bs : Balances) (t : Time) : Except GoError Balance :=
  match atTimeLoop t none bs with
  | none => .error (.msg ErrNoBalances)
  | some a => .ok a

/-! ## The account package -/

/-- `account.EmptyNameError`. -/
def EmptyNameError : String := "Empty name."

/-- Drops leading whitespace characters from a character list. -/
def dropWhileSpace : List Char → List Char
  | [] => []
  | c :: cs => if c.isWhitespace then dropWhileSpace cs else c :: cs

/-- `strings.TrimSpace`, modelled over the character list (the standard
`String.trim` is defined by well-founded recursion on byte positions and
is therefore not kernel-reducible): whitespace is removed from both ends. -/
def trimSpace (s : String) : String :=
  String.mk ((dropWhileSpace ((dropWhileSpace s.data).reverse)).reverse)

/-- `account.FieldError`: zero or more descriptions of problems with a
potential new Account. -/
abbrev FieldError := List String

/-- `FieldError.Equal`: same length and pointwise-equal description
strings (order-sensitive, duplicates counted individually). -/
def FieldError.Equal (e other : FieldError) : Bool :=
  if e.length != other.length then false
  else (List.zip e other).all fun p => p.1 == p.2

/-- `account.Account`: a name, a lifetime time range and a currency code
(the code is its string token; the collaborator's codes serialize to and
from a stable string token). -/
structure Account where
  name : String
  timeRange : Range
  currencyCode : String
deriving DecidableEq, Repr

/-- `Account.Name`. -/
def Account.Name (a : Account) : String := a.name

/-- `Account.Opened`: the instant of the start of the time range. -/
def Account.Opened (a : Account) : Time := a.timeRange.Start.Time

/-- `Account.Closed`: the `NullTime` end of the time range, `Valid` when
the account has been closed. -/
def Account.Closed (a : Account) : NullTime := a.timeRange.End

/-- `Account.TimeRange`. -/
def Account.TimeRange (a : Account) : Range := a.timeRange

/-- `Account.IsOpen`: `!a.timeRange.End().Valid`. -/
def Account.IsOpen (a : Account) : Bool := !(a.timeRange.End).Valid

/-- `Account.CurrencyCode`. -/
def Account.CurrencyCode (a : Account) : String := a.currencyCode

/-- `Account.validate`: collects field error descriptions (currently only
the empty-name check) and wraps a non-empty collection in a `FieldError`. -/
def Account.validate (a : Account) : Option GoError :=
  let fieldErrorDescriptions : List String :=
    if a.name.length = 0 then [EmptyNameError] else []
  if fieldErrorDescriptions.length > 0 then
    some (.fieldError fieldErrorDescriptions)
  else none

/-- `Account.ValidateBalance`: first re-runs `validate`; when the Account
itself is valid, the balance date must be contained in the time range or
equal the close instant, else a `DateOutOfAccountTimeRange` is returned. -/
def Account.ValidateBalance (a : Account) (b : Balance) : Option GoError :=
  match a.validate with
  | some e => some e
  | none =>
    if !(a.timeRange.Contains b.Date)
        && (!(a.Closed).Valid || !(decide ((a.Closed).Time = b.Date))) then
      some (.dateOutOfAccountTimeRange b.Date a.timeRange)
    else none

/-- `Account.Equal`: names identical and time ranges equal; the currency
code is not compared. -/
def Account.Equal (a b : Account) : Bool :=
  if a.name != b.Name then false
  else if !(a.timeRange.Equal b.TimeRange) then false
  else true

/-- `account.Option`: a mutator on an Account that can fail.  The Go
value may be `nil` (skipped by `New`), hence the outer `Option`. -/
abbrev AccountOption := Account → Except GoError Account

/-- The mutator-application loop of `account.New`: `nil` options are
skipped, a failing option aborts with its error. -/
def applyOptions : List (Option AccountOption) → Account → Except GoError Account
  | [], a => .ok a
  | none :: os, a => applyOptions os a
  | some o :: os, a => do applyOptions os (← o a)

/-- `account.New`: trims the name (empty → `EmptyNameError`), initialises
the time range with the opened instant, applies each mutator in sequence
aborting on the first failure, and runs the final validation pass;
construction is all-or-nothing. -/
def Account.New (name : String) (currencyCode : String) (opened : Time)
    (os : List (Option AccountOption)) : Except GoError Account :=
  let trimmed := trimSpace name
  if trimmed.length = 0 then .error (.msg EmptyNameError)
  else do
    let a0 : Account := { name := trimmed, timeRange := Range.empty, currencyCode }
    let tr ← gtimeStart opened a0.timeRange
    let a1 := { a0 with timeRange := tr }
    let a2 ← applyOptions os a1
    match a2.validate with
    | some e => .error e
    | none => .ok a2

/-- `account.CloseTime`: an option setting the close instant via the
collaborator's end mutator. -/
def CloseTime (t : Time) : AccountOption :=
  fun a => do
    let tr ← gtimeEnd t a.timeRange
    .ok { a with timeRange := tr }

/-! ## JSON encoding -/

/-- The JSON blob written by `Account.MarshalJSON`: name, opened instant,
closed instant with presence flag, and the currency code token. -/
structure AccountJSON where
  Name : String
  Opened : Time
  Closed : NullTime
  Currency : String
deriving DecidableEq, Repr

/-- `Account.MarshalJSON`. -/
def Account.MarshalJSON (a : Account) : AccountJSON :=
  { Name := a.Name, Opened := a.Opened, Closed := a.Closed, Currency := a.currencyCode }

/-- Modelled from the spec: `currency.NewCode` of the currency-code
collaborator — `parseCurrencyCode(code: string) -> CurrencyCode | Error`.
The exact validity criterion is not part of the contract; it is modelled
as a non-empty token.  The contract only requires that tokens of
validated codes re-parse to equal codes. -/
def NewCode (s : String) : Except GoError String :=
  if s.length = 0 then .error (.msg "invalid currency code") else .ok s

/-- `Account.UnmarshalJSON` (composed with the package-level
`account.UnmarshalJSON`, which yields no Account on error): reads the
name, re-parses the currency token, rebuilds the time range on a fresh
`gtime.Range` via the start and (when present) end mutators, and re-runs
the validation pass. -/
def Account.UnmarshalJSON (aux : AccountJSON) : Except GoError Account := do
  let c ← NewCode aux.Currency
  let tr1 ← gtimeStart aux.Opened Range.empty
  let tr2 ← if aux.Closed.Valid then gtimeEnd aux.Closed.Time tr1 else .ok tr1
  let a : Account := { name := aux.Name, currencyCode := c, timeRange := tr2 }
  match a.validate with
  | some e => .error e
  | none => .ok a

/-- The JSON blob of a `balance.Balance`: the standard library encodes
its two exported fields. -/
structure BalanceJSON where
  Date : Time
  Amount : Int
deriving DecidableEq, Repr

/-- JSON encoding of a Balance (standard-library struct encoding). -/
def Balance.MarshalJSON (b : Balance) : BalanceJSON :=
  { Date := b.Date, Amount := b.Amount }

/-- JSON decoding of a Balance (standard-library struct decoding). -/
def Balance.UnmarshalJSON (j : BalanceJSON) : Balance :=
  { Date := j.Date, Amount := j.Amount }
/-! ## Theorems -/

/-- C8: `IsOpen` is true exactly when the time range has no close
instant; it is a field-presence check with no reference instant. -/
theorem IsOpen_iff_no_close_instant (a : Account) :
    a.IsOpen = true ↔ a.timeRange.stop.Valid = false := by
  simp [Account.IsOpen, Range.End]

/-- C9: `FieldError.Equal` holds exactly when the two errors hold the
same description strings in the same order with the same multiplicities,
i.e. when the underlying lists are equal. -/
theorem FieldError_Equal_iff_eq (e other : FieldError) :
    FieldError.Equal e other = true ↔ e = other := by
  induction e generalizing other with
  | nil => cases other <;> simp [FieldError.Equal]
  | cons a as ih =>
    cases other with
    | nil => simp [FieldError.Equal]
    | cons x xs =>
      have h := ih xs
      simp [FieldError.Equal] at h ⊢
      constructor
      · rintro ⟨hlen, hax, hall⟩
        exact ⟨hax, h.mp ⟨hlen, hall⟩⟩
      · rintro ⟨hax, rfl⟩
        exact ⟨rfl, hax, (h.mpr rfl).2⟩

/-- C7: two Accounts are `Equal` exactly when their names are identical
and their time ranges are equal; the currency code plays no role. -/
theorem Account_Equal_iff_name_and_timeRange (a b : Account) :
    a.Equal b = true ↔ (a.name = b.name ∧ a.timeRange.Equal b.timeRange = true) := by
  simp [Account.Equal, Account.Name, Account.TimeRange]
/-- C4: `ValidateBalance` first runs the Account's own validation and
returns its error without any balance check when the Account is invalid;
for a valid Account it returns no error exactly when the time range
contains the balance date or the close instant equals it, and otherwise
returns `DateOutOfAccountTimeRange` carrying the balance date and the
account time range. -/
theorem ValidateBalance_validate_first_then_range_or_close (a : Account) (b : Balance) :
    (∀ e, a.validate = some e → a.ValidateBalance b = some e)
    ∧ (a.validate = none →
        ((a.ValidateBalance b = none ↔
          (a.timeRange.Contains b.Date = true
            ∨ ((a.Closed).Valid = true ∧ (a.Closed).Time = b.Date)))
         ∧ (a.ValidateBalance b = none
            ∨ a.ValidateBalance b =
                some (.dateOutOfAccountTimeRange b.Date a.timeRange)))) := by
  constructor
  · intro e he
    simp [Account.ValidateBalance, he]
  · intro hv
    simp only [Account.ValidateBalance, hv]
    by_cases hc : a.timeRange.Contains b.Date
    · simp [hc]
    · by_cases hcv : (a.Closed).Valid
      · by_cases hct : (a.Closed).Time = b.Date
        · simp [hc, hcv, hct]
        · simp [hc, hcv, hct]
      · simp [hc, hcv]

theorem ValidateBalance_validate_first_then_range_or_close_witness :
    (Account.ValidateBalance ⟨"", Range.empty, "EUR"⟩ ⟨5, 0⟩
        = some (.fieldError [EmptyNameError]))
    ∧ (Account.ValidateBalance ⟨"A", ⟨⟨true, 5⟩, ⟨true, 9⟩⟩, "EUR"⟩ ⟨9, 0⟩ = none) := by
  constructor
  · exact (ValidateBalance_validate_first_then_range_or_close
      ⟨"", Range.empty, "EUR"⟩ ⟨5, 0⟩).1 (.fieldError [EmptyNameError]) rfl
  · exact ((ValidateBalance_validate_first_then_range_or_close
      ⟨"A", ⟨⟨true, 5⟩, ⟨true, 9⟩⟩, "EUR"⟩ ⟨9, 0⟩).2 rfl).1.mpr (by decide)
/-- The Account state reached by `Account.New` after the name check and
the initialisation of the time range with the opened instant, before any
mutator runs. -/
def accountInit (name : String) (currencyCode : String) (opened : Time) : Account :=
  { name := trimSpace name, timeRange := ⟨⟨true, opened⟩, ⟨false, 0⟩⟩, currencyCode }

lemma applyOptions_append (os₁ os₂ : List (Option AccountOption)) (a : Account) :
    applyOptions (os₁ ++ os₂) a =
      match applyOptions os₁ a with
      | .ok a' => applyOptions os₂ a'
      | .error e => .error e := by
  induction os₁ generalizing a with
  | nil => simp [applyOptions]
  | cons o os ih =>
    cases o with
    | none => simp [applyOptions, ih]
    | some f =>
      simp only [List.cons_append, applyOptions, bind, Except.bind]
      cases f a <;> simp [ih]

lemma New_unfold (name cc : String) (opened : Time) (os : List (Option AccountOption))
    (h : (trimSpace name).length ≠ 0) :
    Account.New name cc opened os =
      match applyOptions os (accountInit name cc opened) with
      | .ok a2 =>
        match a2.validate with
        | some e => .error e
        | none => .ok a2
      | .error e => .error e := by
  simp only [Account.New, if_neg h, gtimeStart, accountInit, Range.empty,
    Bool.false_and, if_neg (Bool.false_ne_true), bind, Except.bind]
  cases applyOptions os ⟨trimSpace name, ⟨⟨true, opened⟩, ⟨false, 0⟩⟩, cc⟩ <;> rfl

/-- C5: Account construction is all-or-nothing: an empty trimmed name
yields the empty-name error and no Account; a failing mutator yields that
mutator's error and no Account even when all earlier mutators succeeded;
a failing final validation pass yields the validation error and no
Account. -/
theorem New_all_or_nothing :
    (∀ name cc opened os, (trimSpace name).length = 0 →
       Account.New name cc opened os = .error (.msg EmptyNameError))
    ∧ (∀ name cc opened (os₁ : List (Option AccountOption)) (o : AccountOption) os₂ a' e,
         (trimSpace name).length ≠ 0 →
         applyOptions os₁ (accountInit name cc opened) = .ok a' →
         o a' = .error e →
         Account.New name cc opened (os₁ ++ some o :: os₂) = .error e)
    ∧ (∀ name cc opened os a' e,
         (trimSpace name).length ≠ 0 →
         applyOptions os (accountInit name cc opened) = .ok a' →
         a'.validate = some e →
         Account.New name cc opened os = .error e) := by
  refine ⟨?_, ?_, ?_⟩
  · intro name cc opened os h
    simp [Account.New, h]
  · intro name cc opened os₁ o os₂ a' e hname h1 h2
    rw [New_unfold name cc opened _ hname, applyOptions_append, h1]
    simp [applyOptions, bind, Except.bind, h2]
  · intro name cc opened os a' e hname h1 h2
    rw [New_unfold name cc opened os hname, h1]
    simp [h2]

theorem New_all_or_nothing_witness :
    (Account.New "" "EUR" 0 [] = .error (.msg EmptyNameError))
    ∧ (Account.New "A" "EUR" 0
        [some (fun _ => .error (.msg "TEST ERROR"))] = .error (.msg "TEST ERROR"))
    ∧ (Account.New "A" "EUR" 0
        [some (fun a => .ok { a with name := "" })] = .error (.fieldError [EmptyNameError])) := by
  refine ⟨?_, ?_, ?_⟩
  · exact New_all_or_nothing.1 "" "EUR" 0 [] (by decide)
  · exact New_all_or_nothing.2.1 "A" "EUR" 0 [] (fun _ => .error (.msg "TEST ERROR")) []
      (accountInit "A" "EUR" 0) (.msg "TEST ERROR") (by decide) rfl rfl
  · exact New_all_or_nothing.2.2 "A" "EUR" 0 [some (fun a => .ok { a with name := "" })]
      { accountInit "A" "EUR" 0 with name := "" } (.fieldError [EmptyNameError])
      (by decide) rfl rfl
/-- C6: decoding the JSON encoding of a validly constructed Account (open
or closed: non-empty name, valid currency token, start instant present,
end not before start when present) succeeds and yields a value `Equal` to
the original with the same currency code token; decoding the encoding of
any Balance yields a value `Equal` to the original. -/
theorem json_roundtrip_equal :
    (∀ a : Account, a.name.length ≠ 0 → a.currencyCode.length ≠ 0 →
       a.timeRange.start.Valid = true →
       (a.timeRange.stop.Valid = true → a.timeRange.start.Time ≤ a.timeRange.stop.Time) →
       ∃ a', Account.UnmarshalJSON a.MarshalJSON = .ok a'
          ∧ a'.Equal a = true ∧ a'.currencyCode = a.currencyCode)
    ∧ (∀ b : Balance, (Balance.UnmarshalJSON b.MarshalJSON).Equal b = true) := by
  constructor
  · rintro ⟨nm, ⟨⟨sv, st⟩, ⟨ev, et⟩⟩, cc⟩ hname hcc hsv hse
    simp only at hsv hse
    subst hsv
    cases ev with
    | false =>
      refine ⟨⟨nm, ⟨⟨true, st⟩, ⟨false, 0⟩⟩, cc⟩, ?_, ?_, rfl⟩
      · simp [Account.UnmarshalJSON, Account.MarshalJSON, NewCode, hcc,
          Account.Name, Account.Opened, Account.Closed, Range.Start, Range.End,
          gtimeStart, Range.empty, bind, Except.bind, Account.validate, hname]
      · simp [Account.Equal, Account.Name, Account.TimeRange, Range.Equal,
          NullTime.EqualNT]
    | true =>
      have hle : st ≤ et := hse rfl
      refine ⟨⟨nm, ⟨⟨true, st⟩, ⟨true, et⟩⟩, cc⟩, ?_, ?_, rfl⟩
      · simp [Account.UnmarshalJSON, Account.MarshalJSON, NewCode, hcc,
          Account.Name, Account.Opened, Account.Closed, Range.Start, Range.End,
          gtimeStart, gtimeEnd, Range.empty, bind, Except.bind,
          Account.validate, hname, not_lt.mpr hle]
      · simp [Account.Equal, Account.Name, Account.TimeRange, Range.Equal,
          NullTime.EqualNT]
  · intro b
    simp [Balance.UnmarshalJSON, Balance.MarshalJSON, Balance.Equal]

theorem json_roundtrip_equal_witness :
    (∃ a', Account.UnmarshalJSON
        (Account.MarshalJSON ⟨"A", ⟨⟨true, 0⟩, ⟨true, 5⟩⟩, "EUR"⟩) = .ok a'
      ∧ a'.Equal ⟨"A", ⟨⟨true, 0⟩, ⟨true, 5⟩⟩, "EUR"⟩ = true
      ∧ a'.currencyCode = "EUR")
    ∧ (Balance.UnmarshalJSON (Balance.MarshalJSON ⟨3, -7⟩)).Equal ⟨3, -7⟩ = true := by
  exact ⟨json_roundtrip_equal.1 ⟨"A", ⟨⟨true, 0⟩, ⟨true, 5⟩⟩, "EUR"⟩
    (by decide) (by decide) rfl (by decide), json_roundtrip_equal.2 ⟨3, -7⟩⟩
lemma earliestLoop_spec (l : List Balance) (e : Balance) :
    (earliestLoop e l = e ∧ ∀ b ∈ l, e.Date ≤ b.Date)
    ∨ (∃ r l₁ l₂, earliestLoop e l = r ∧ l = l₁ ++ r :: l₂ ∧ r.Date < e.Date ∧
        (∀ b ∈ l₁, r.Date < b.Date) ∧ (∀ b ∈ l₂, r.Date ≤ b.Date)) := by
  induction l generalizing e with
  | nil => exact Or.inl ⟨rfl, by simp⟩
  | cons b l ih =>
    by_cases h : b.Date < e.Date
    · have hstep : earliestLoop e (b :: l) = earliestLoop b l := by
        simp [earliestLoop, if_pos h]
      rcases ih b with ⟨h1, h2⟩ | ⟨r, l₁, l₂, hr, heq, hlt, hpre, hpost⟩
      · exact Or.inr ⟨b, [], l, by rw [hstep, h1], by simp, h, by simp, h2⟩
      · refine Or.inr ⟨r, b :: l₁, l₂, by rw [hstep, hr], by rw [heq, List.cons_append],
          hlt.trans h, ?_, hpost⟩
        intro x hx
        rcases List.mem_cons.mp hx with rfl | hx
        · exact hlt
        · exact hpre x hx
    · have hle : e.Date ≤ b.Date := le_of_not_lt h
      have hstep : earliestLoop e (b :: l) = earliestLoop e l := by
        simp [earliestLoop, if_neg h]
      rcases ih e with ⟨h1, h2⟩ | ⟨r, l₁, l₂, hr, heq, hlt, hpre, hpost⟩
      · refine Or.inl ⟨by rw [hstep, h1], ?_⟩
        intro x hx
        rcases List.mem_cons.mp hx with rfl | hx
        · exact hle
        · exact h2 x hx
      · refine Or.inr ⟨r, b :: l₁, l₂, by rw [hstep, hr], by rw [heq, List.cons_append],
          hlt, ?_, hpost⟩
        intro x hx
        rcases List.mem_cons.mp hx with rfl | hx
        · exact hlt.trans_le hle
        · exact hpre x hx

lemma latestLoop_spec (l : List Balance) (e : Balance) :
    (latestLoop e l = e ∧ ∀ b ∈ l, b.Date < e.Date)
    ∨ (∃ r l₁ l₂, latestLoop e l = r ∧ l = l₁ ++ r :: l₂ ∧ e.Date ≤ r.Date ∧
        (∀ b ∈ l₁, b.Date ≤ r.Date) ∧ (∀ b ∈ l₂, b.Date < r.Date)) := by
  induction l generalizing e with
  | nil => exact Or.inl ⟨rfl, by simp⟩
  | cons b l ih =>
    by_cases h : e.Date ≤ b.Date
    · have hstep : latestLoop e (b :: l) = latestLoop b l := by
        simp [latestLoop, if_pos h]
      rcases ih b with ⟨h1, h2⟩ | ⟨r, l₁, l₂, hr, heq, hge, hpre, hpost⟩
      · exact Or.inr ⟨b, [], l, by rw [hstep, h1], by simp, h, by simp, h2⟩
      · refine Or.inr ⟨r, b :: l₁, l₂, by rw [hstep, hr], by rw [heq, List.cons_append],
          h.trans hge, ?_, hpost⟩
        intro x hx
        rcases List.mem_cons.mp hx with rfl | hx
        · exact hge
        · exact hpre x hx
    · have hlt : b.Date < e.Date := lt_of_not_le h
      have hstep : latestLoop e (b :: l) = latestLoop e l := by
        simp [latestLoop, if_neg h]
      rcases ih e with ⟨h1, h2⟩ | ⟨r, l₁, l₂, hr, heq, hge, hpre, hpost⟩
      · refine Or.inl ⟨by rw [hstep, h1], ?_⟩
        intro x hx
        rcases List.mem_cons.mp hx with rfl | hx
        · exact hlt
        · exact h2 x hx
      · refine Or.inr ⟨r, b :: l₁, l₂, by rw [hstep, hr], by rw [heq, List.cons_append],
          hge, ?_, hpost⟩
        intro x hx
        rcases List.mem_cons.mp hx with rfl | hx
        · exact (hlt.trans_le hge).le
        · exact hpre x hx

lemma earliestLoop_first_step (b0 : Balance) (rest : List Balance) :
    earliestLoop b0 (b0 :: rest) = earliestLoop b0 rest := by
  simp [earliestLoop]

lemma latestLoop_first_step (b0 : Balance) (rest : List Balance) :
    latestLoop b0 (b0 :: rest) = latestLoop b0 rest := by
  simp [latestLoop]

/-- C2: on a non-empty collection `Earliest` succeeds with the Balance of
minimal date, the first in sequence among ties (everything before it in
the sequence is strictly later, everything after it is not earlier); on
the empty collection it fails with the empty-collection error. -/
theorem Earliest_minimal_first_tiebreak (bs : Balances) :
    (bs = [] → Balances.Earliest bs = .error (.msg ErrEmptyBalancesMessage))
    ∧ (bs ≠ [] → ∃ r l₁ l₂, Balances.Earliest bs = .ok r ∧ bs = l₁ ++ r :: l₂ ∧
        (∀ b ∈ l₁, r.Date < b.Date) ∧ (∀ b ∈ l₂, r.Date ≤ b.Date)) := by
  constructor
  · rintro rfl; rfl
  · intro hne
    match bs with
    | [] => exact absurd rfl hne
    | b0 :: rest =>
      have hrun : Balances.Earliest (b0 :: rest) = .ok (earliestLoop b0 rest) := by
        simp [Balances.Earliest, earliestLoop_first_step]
      rcases earliestLoop_spec rest b0 with ⟨h1, h2⟩ | ⟨r, l₁, l₂, hr, heq, hlt, hpre, hpost⟩
      · exact ⟨b0, [], rest, by rw [hrun, h1], by simp, by simp, h2⟩
      · refine ⟨r, b0 :: l₁, l₂, by rw [hrun, hr], by rw [heq, List.cons_append], ?_, hpost⟩
        intro x hx
        rcases List.mem_cons.mp hx with rfl | hx
        · exact hlt
        · exact hpre x hx

/-- C3: on a non-empty collection `Latest` succeeds with the Balance of
maximal date, the last in sequence among ties (everything before it in
the sequence is not later, everything after it is strictly earlier); on
the empty collection it fails with the empty-collection error. -/
theorem Latest_maximal_last_tiebreak (bs : Balances) :
    (bs = [] → Balances.Latest bs = .error (.msg ErrEmptyBalancesMessage))
    ∧ (bs ≠ [] → ∃ r l₁ l₂, Balances.Latest bs = .ok r ∧ bs = l₁ ++ r :: l₂ ∧
        (∀ b ∈ l₁, b.Date ≤ r.Date) ∧ (∀ b ∈ l₂, b.Date < r.Date)) := by
  constructor
  · rintro rfl; rfl
  · intro hne
    match bs with
    | [] => exact absurd rfl hne
    | b0 :: rest =>
      have hrun : Balances.Latest (b0 :: rest) = .ok (latestLoop b0 rest) := by
        simp [Balances.Latest, latestLoop_first_step]
      rcases latestLoop_spec rest b0 with ⟨h1, h2⟩ | ⟨r, l₁, l₂, hr, heq, hge, hpre, hpost⟩
      · exact ⟨b0, [], rest, by rw [hrun, h1], by simp, by simp, h2⟩
      · refine ⟨r, b0 :: l₁, l₂, by rw [hrun, hr], by rw [heq, List.cons_append], ?_, hpost⟩
        intro x hx
        rcases List.mem_cons.mp hx with rfl | hx
        · exact hge
        · exact hpre x hx

theorem Earliest_minimal_first_tiebreak_witness :
    (Balances.Earliest [] = .error (.msg ErrEmptyBalancesMessage))
    ∧ (∃ r l₁ l₂, Balances.Earliest [⟨3, 10⟩, ⟨3, 20⟩] = .ok r
        ∧ ([⟨3, 10⟩, ⟨3, 20⟩] : Balances) = l₁ ++ r :: l₂
        ∧ (∀ b ∈ l₁, r.Date < b.Date) ∧ (∀ b ∈ l₂, r.Date ≤ b.Date)) :=
  ⟨(Earliest_minimal_first_tiebreak []).1 rfl,
   (Earliest_minimal_first_tiebreak [⟨3, 10⟩, ⟨3, 20⟩]).2 (by decide)⟩

theorem Latest_maximal_last_tiebreak_witness :
    (Balances.Latest [] = .error (.msg ErrEmptyBalancesMessage))
    ∧ (∃ r l₁ l₂, Balances.Latest [⟨3, 10⟩, ⟨3, 20⟩] = .ok r
        ∧ ([⟨3, 10⟩, ⟨3, 20⟩] : Balances) = l₁ ++ r :: l₂
        ∧ (∀ b ∈ l₁, b.Date ≤ r.Date) ∧ (∀ b ∈ l₂, b.Date < r.Date)) :=
  ⟨(Latest_maximal_last_tiebreak []).1 rfl,
   (Latest_maximal_last_tiebreak [⟨3, 10⟩, ⟨3, 20⟩]).2 (by decide)⟩
lemma atTimeLoop_some (t : Time) (l : List Balance) :
    ∀ a0 : Balance, a0.Date ≤ t →
    ∃ a, atTimeLoop t (some a0) l = some a ∧ a.Date ≤ t ∧
      ((a = a0 ∧ ∀ b ∈ l, b.Date ≤ t → b.Date < a0.Date)
       ∨ ∃ l₁ l₂, l = l₁ ++ a :: l₂ ∧ a0.Date ≤ a.Date ∧
           (∀ b ∈ l₁, b.Date ≤ t → b.Date ≤ a.Date)
           ∧ (∀ b ∈ l₂, b.Date ≤ t → b.Date < a.Date)) := by
  induction l with
  | nil => exact fun a0 h0 => ⟨a0, rfl, h0, Or.inl ⟨rfl, by simp⟩⟩
  | cons b l ih =>
    intro a0 h0
    by_cases hb : t < b.Date
    · have hstep : atTimeLoop t (some a0) (b :: l) = atTimeLoop t (some a0) l := by
        simp [atTimeLoop, if_pos hb]
      obtain ⟨a, ha, hat, hcase⟩ := ih a0 h0
      refine ⟨a, hstep ▸ ha, hat, ?_⟩
      rcases hcase with ⟨haeq, hall⟩ | ⟨l₁, l₂, heq, hge, hpre, hpost⟩
      · refine Or.inl ⟨haeq, ?_⟩
        intro x hx hq
        rcases List.mem_cons.mp hx with rfl | hx
        · exact absurd hq (not_le.mpr hb)
        · exact hall x hx hq
      · refine Or.inr ⟨b :: l₁, l₂, by rw [heq, List.cons_append], hge, ?_, hpost⟩
        intro x hx hq
        rcases List.mem_cons.mp hx with rfl | hx
        · exact absurd hq (not_le.mpr hb)
        · exact hpre x hx hq
    · have hq : b.Date ≤ t := le_of_not_lt hb
      by_cases hd : a0.Date ≤ b.Date
      · have hstep : atTimeLoop t (some a0) (b :: l) = atTimeLoop t (some b) l := by
          simp [atTimeLoop, if_neg hb, if_pos hd]
        obtain ⟨a, ha, hat, hcase⟩ := ih b hq
        refine ⟨a, hstep ▸ ha, hat, ?_⟩
        rcases hcase with ⟨haeq, hall⟩ | ⟨l₁, l₂, heq, hge, hpre, hpost⟩
        · subst haeq
          exact Or.inr ⟨[], l, by simp, hd, by simp, hall⟩
        · refine Or.inr ⟨b :: l₁, l₂, by rw [heq, List.cons_append], hd.trans hge, ?_, hpost⟩
          intro x hx hxq
          rcases List.mem_cons.mp hx with rfl | hx
          · exact hge
          · exact hpre x hx hxq
      · have hd' : b.Date < a0.Date := lt_of_not_le hd
        have hstep : atTimeLoop t (some a0) (b :: l) = atTimeLoop t (some a0) l := by
          simp [atTimeLoop, if_neg hb, if_neg hd]
        obtain ⟨a, ha, hat, hcase⟩ := ih a0 h0
        refine ⟨a, hstep ▸ ha, hat, ?_⟩
        rcases hcase with ⟨haeq, hall⟩ | ⟨l₁, l₂, heq, hge, hpre, hpost⟩
        · refine Or.inl ⟨haeq, ?_⟩
          intro x hx hxq
          rcases List.mem_cons.mp hx with rfl | hx
          · exact hd'
          · exact hall x hx hxq
        · refine Or.inr ⟨b :: l₁, l₂, by rw [heq, List.cons_append], hge, ?_, hpost⟩
          intro x hx hxq
          rcases List.mem_cons.mp hx with rfl | hx
          · exact (hd'.trans_le hge).le
          · exact hpre x hx hxq

lemma atTimeLoop_none (t : Time) (l : List Balance) :
    (atTimeLoop t none l = none ∧ ∀ b ∈ l, t < b.Date)
    ∨ (∃ a l₁ l₂, atTimeLoop t none l = some a ∧ a.Date ≤ t ∧ l = l₁ ++ a :: l₂ ∧
        (∀ b ∈ l₁, b.Date ≤ t → b.Date ≤ a.Date)
        ∧ (∀ b ∈ l₂, b.Date ≤ t → b.Date < a.Date)) := by
  induction l with
  | nil => exact Or.inl ⟨rfl, by simp⟩
  | cons b l ih =>
    by_cases hb : t < b.Date
    · have hstep : atTimeLoop t none (b :: l) = atTimeLoop t none l := by
        simp [atTimeLoop, if_pos hb]
      rcases ih with ⟨h1, h2⟩ | ⟨a, l₁, l₂, ha, hat, heq, hpre, hpost⟩
      · refine Or.inl ⟨hstep ▸ h1, ?_⟩
        intro x hx
        rcases List.mem_cons.mp hx with rfl | hx
        · exact hb
        · exact h2 x hx
      · refine Or.inr ⟨a, b :: l₁, l₂, hstep ▸ ha, hat,
          by rw [heq, List.cons_append], ?_, hpost⟩
        intro x hx hxq
        rcases List.mem_cons.mp hx with rfl | hx
        · exact absurd hxq (not_le.mpr hb)
        · exact hpre x hx hxq
    · have hq : b.Date ≤ t := le_of_not_lt hb
      have hstep : atTimeLoop t none (b :: l) = atTimeLoop t (some b) l := by
        simp [atTimeLoop, if_neg hb]
      obtain ⟨a, ha, hat, hcase⟩ := atTimeLoop_some t l b hq
      rcases hcase with ⟨haeq, hall⟩ | ⟨l₁, l₂, heq, hge, hpre, hpost⟩
      · subst haeq
        exact Or.inr ⟨a, [], l, hstep ▸ ha, hat, by simp, by simp, hall⟩
      · refine Or.inr ⟨a, b :: l₁, l₂, hstep ▸ ha, hat,
          by rw [heq, List.cons_append], ?_, hpost⟩
        intro x hx hxq
        rcases List.mem_cons.mp hx with rfl | hx
        · exact hge
        · exact hpre x hx hxq

/-- C1: `AtTime` considers exactly the Balances dated at or before `t`
and returns the one with the maximal qualifying date, the last in
sequence among ties (qualifying elements before it are not later,
qualifying elements after it are strictly earlier); when no Balance is
dated at or before `t` — in particular on the empty collection — it
fails with the no-qualifying-balance error. -/
theorem AtTime_latest_qualifying_last_tiebreak (bs : Balances) (t : Time) :
    ((∀ b ∈ bs, t < b.Date) → Balances.AtTime bs t = .error (.msg ErrNoBalances))
    ∧ (∀ b0 ∈ bs, b0.Date ≤ t →
        ∃ a l₁ l₂, Balances.AtTime bs t = .ok a ∧ a.Date ≤ t ∧ bs = l₁ ++ a :: l₂ ∧
          (∀ b ∈ l₁, b.Date ≤ t → b.Date ≤ a.Date)
          ∧ (∀ b ∈ l₂, b.Date ≤ t → b.Date < a.Date)) := by
  constructor
  · intro hall
    rcases atTimeLoop_none t bs with ⟨h1, _⟩ | ⟨a, l₁, l₂, _, hat, heq, _, _⟩
    · simp [Balances.AtTime, h1]
    · exact absurd hat (not_le.mpr (hall a (heq ▸ List.mem_append_right l₁ (List.mem_cons_self a l₂))))
  · intro b0 hb0 hq
    rcases atTimeLoop_none t bs with ⟨_, h2⟩ | ⟨a, l₁, l₂, ha, hat, heq, hpre, hpost⟩
    · exact absurd hq (not_le.mpr (h2 b0 hb0))
    · exact ⟨a, l₁, l₂, by simp [Balances.AtTime, ha], hat, heq, hpre, hpost⟩

theorem AtTime_latest_qualifying_last_tiebreak_witness :
    (Balances.AtTime [⟨2000, 0⟩] 1000 = .error (.msg ErrNoBalances))
    ∧ (∃ a l₁ l₂,
        Balances.AtTime [⟨2001, 1⟩, ⟨2001, 10⟩, ⟨2000, 8237⟩, ⟨2003, 489⟩] 2002 = .ok a
        ∧ a.Date ≤ 2002
        ∧ ([⟨2001, 1⟩, ⟨2001, 10⟩, ⟨2000, 8237⟩, ⟨2003, 489⟩] : Balances) = l₁ ++ a :: l₂
        ∧ (∀ b ∈ l₁, b.Date ≤ 2002 → b.Date ≤ a.Date)
        ∧ (∀ b ∈ l₂, b.Date ≤ 2002 → b.Date < a.Date)) :=
  ⟨(AtTime_latest_qualifying_last_tiebreak [⟨2000, 0⟩] 1000).1 (by decide),
   (AtTime_latest_qualifying_last_tiebreak
      [⟨2001, 1⟩, ⟨2001, 10⟩, ⟨2000, 8237⟩, ⟨2003, 489⟩] 2002).2 ⟨2001, 1⟩
      (by decide) (by decide)⟩
/-- C10: membership invariant of the derived queries — a successful
`Earliest` or `Latest` returns an element of the collection, and a
successful `AtTime` returns an element of the collection whose date is at
or before the query instant. -/
theorem queries_return_members (bs : Balances) (t : Time) :
    (∀ r, Balances.Earliest bs = .ok r → r ∈ bs)
    ∧ (∀ r, Balances.Latest bs = .ok r → r ∈ bs)
    ∧ (∀ r, Balances.AtTime bs t = .ok r → r ∈ bs ∧ r.Date ≤ t) := by
  refine ⟨?_, ?_, ?_⟩
  · intro r hr
    match bs with
    | [] => exact absurd hr (by simp [Balances.Earliest])
    | b0 :: rest =>
      have hrun : Balances.Earliest (b0 :: rest) = .ok (earliestLoop b0 rest) := by
        simp [Balances.Earliest, earliestLoop_first_step]
      have hres : earliestLoop b0 rest = r := by
        have := hrun.symm.trans hr
        exact Except.ok.inj this
      rcases earliestLoop_spec rest b0 with ⟨h1, _⟩ | ⟨r', l₁, l₂, hr', heq, _, _, _⟩
      · rw [← hres, h1]; exact List.mem_cons_self b0 rest
      · rw [← hres, hr']
        exact List.mem_cons_of_mem b0 (heq ▸ List.mem_append_right l₁ (List.mem_cons_self r' l₂))
  · intro r hr
    match bs with
    | [] => exact absurd hr (by simp [Balances.Latest])
    | b0 :: rest =>
      have hrun : Balances.Latest (b0 :: rest) = .ok (latestLoop b0 rest) := by
        simp [Balances.Latest, latestLoop_first_step]
      have hres : latestLoop b0 rest = r := Except.ok.inj (hrun.symm.trans hr)
      rcases latestLoop_spec rest b0 with ⟨h1, _⟩ | ⟨r', l₁, l₂, hr', heq, _, _, _⟩
      · rw [← hres, h1]; exact List.mem_cons_self b0 rest
      · rw [← hres, hr']
        exact List.mem_cons_of_mem b0 (heq ▸ List.mem_append_right l₁ (List.mem_cons_self r' l₂))
  · intro r hr
    rcases atTimeLoop_none t bs with ⟨h1, _⟩ | ⟨a, l₁, l₂, ha, hat, heq, _, _⟩
    · exact absurd hr (by simp [Balances.AtTime, h1])
    · have hrun : Balances.AtTime bs t = .ok a := by simp [Balances.AtTime, ha]
      have har : a = r := Except.ok.inj (hrun.symm.trans hr)
      exact ⟨har ▸ heq ▸ List.mem_append_right l₁ (List.mem_cons_self a l₂), har ▸ hat⟩

theorem queries_return_members_witness :
    ((⟨0, 5⟩ : Balance) ∈ ([⟨0, 5⟩] : Balances))
    ∧ ((⟨0, 5⟩ : Balance) ∈ ([⟨0, 5⟩] : Balances))
    ∧ ((⟨0, 5⟩ : Balance) ∈ ([⟨0, 5⟩] : Balances) ∧ (⟨0, 5⟩ : Balance).Date ≤ 0) :=
  ⟨(queries_return_members [⟨0, 5⟩] 0).1 ⟨0, 5⟩ rfl,
   (queries_return_members [⟨0, 5⟩] 0).2.1 ⟨0, 5⟩ rfl,
   (queries_return_members [⟨0, 5⟩] 0).2.2 ⟨0, 5⟩ rfl⟩
